import Mathlib

/-!
Shallow embedding of the bencoding decoder of `fraburnham/downpour`
(`src/lib.rs`) and a verification of the spec claims against it.

Modelling conventions:
* Rust byte slices `&[u8]` become `List Nat` (each element a byte value).
* Rust `i64` values become `Int`, with every primitive operation performed
  modulo `2 ^ 64` on the unsigned bit pattern, matching the two's-complement
  wraparound of release-profile Rust (the spec itself states that values
  exceeding the 64-bit signed range "wrap per the language's primitive
  arithmetic").  `Nat` accumulators carry the unsigned bit pattern and
  `toI64` reinterprets it as a signed value at the end.
* Fallible Rust code returns `Option`: `none` models an abnormal abort
  (an out-of-bounds slice index, a failed `unwrap`, or a non-terminating
  loop), which the real program surfaces as a panic rather than as a
  `DecodeError` value.
* The `while` loops of `decode_list`, `decode_dict` and `decode` are
  expressed as recursion over the remaining suffix of the slice, with the
  running `offset` carried alongside; a fuel parameter makes the mutual
  recursion structural.  The top-level entry points supply fuel that is
  ample for every input considered, so fuel exhaustion is unreachable
  there.
* `DecodeError.msg` (a display-only `&'static str`) is elided from the
  error model; offsets and error kinds are modelled exactly.
* `DictEntry { key, value }` is modelled as the pair `List Nat × Element`.
-/

namespace Downpour

/-- Error categories of `DecodeErrorType` in `src/lib.rs`. -/
inductive DecodeErrorType where
  | DispatchFailed
  | InvalidByteStringSize
  | InvalidByteStringData
  | InvalidDictKey
  | InvalidIntegerValue
  | MissingDelimiter
  | MissingEndDelimiter
  | MissingStartDelimiter
  | NothingToDecode
deriving DecidableEq, Repr

/-- `DecodeError` without its display-only message string. -/
structure DecodeError where
  offset : Nat
  error_type : DecodeErrorType
deriving DecidableEq, Repr

/-- The decoded value tree.  `Dict` entries are `(key, value)` pairs. -/
inductive Element where
  | ByteString : List Nat → Element
  | Integer : Int → Element
  | List : List Element → Element
  | Dict : List (List Nat × Element) → Element
deriving Repr

/-- `ElementDecoded`: a decoded element plus the offset of the first
unconsumed byte of the slice the decoder received. -/
structure ElementDecoded where
  element : Element
  end_offset : Nat
deriving Repr

/-- `DecodeResult` of a single element decoder. -/
inductive DecodeResult where
  | Ok : ElementDecoded → DecodeResult
  | Err : DecodeError → DecodeResult
deriving Repr

/-- `DecodedDocument`: result of the top-level decoder. -/
inductive DecodedDocument where
  | Ok : List Element → DecodedDocument
  | Err : DecodeError → DecodedDocument
deriving Repr

/-- Byte constant `b:` . -/
def COLON : Nat := 0x3A
/-- Byte constant `b-` . -/
def MINUS : Nat := 0x2D
/-- Byte constant `bd` . -/
def DBYTE : Nat := 0x64
/-- Byte constant `be` . -/
def EBYTE : Nat := 0x65
/-- Byte constant `bi` . -/
def IBYTE : Nat := 0x69
/-- Byte constant `bl` . -/
def LBYTE : Nat := 0x6C

/-- Unsigned bit pattern (mod `2 ^ 64`) reinterpreted as a signed 64-bit
value. -/
def toI64 (v : Nat) : Int :=
  if v < 2 ^ 63 then (v : Int) else (v : Int) - 2 ^ 64

/-- The digit-accumulation loop of `decode_ascii_integer`:
`for (index, n) in iter.rev().enumerate() { val += ((n - 0x30) as i64) *
10i64.pow(index.try_into().unwrap()) }`, processing the digit run
back-to-front.  The argument list is already reversed, so the head is the
least significant byte.  All arithmetic is on 64-bit bit patterns modulo
`2 ^ 64`; `(n - 0x30) as i64` is the wrapping `u8` subtraction
`(n + 256 - 0x30) % 256` zero-extended.  `index.try_into().unwrap()`
aborts once `index` reaches `2 ^ 32` (it no longer fits in `u32`), which
the `none` branch models. -/
def asciiAccum : List Nat → Nat → Nat → Option Nat
  | [], _, val => some val
  | b :: rest, idx, val =>
    if idx < 2 ^ 32 then
      asciiAccum rest (idx + 1)
        ((val + ((b + 256 - 0x30) % 256) * (10 ^ idx % 2 ^ 64)) % 2 ^ 64)
    else
      none

/-- `decode_ascii_integer` from `src/lib.rs`: optional leading `-`, then
the remaining bytes are accumulated positionally with no digit check and
no overflow check. -/
def decode_ascii_integer (data : List Nat) : Option (Except DecodeError Int) :=
  let negative := data.head? = some MINUS
  let digits := if data.head? = some MINUS then data.drop 1 else data
  if data.length = 0 then
    some (.error ⟨0, .NothingToDecode⟩)
  else
    match asciiAccum digits.reverse 0 0 with
    | none => none
    | some val =>
      let v := if negative then (2 ^ 64 - val) % 2 ^ 64 else val
      some (.ok (toI64 v))

/-- `Iterator::position` on a byte slice. -/
def position (p : Nat → Bool) : List Nat → Option Nat
  | [] => none
  | b :: rest => if p b then some 0 else (position p rest).map (· + 1)

/-- `decode_bytestring` from `src/lib.rs`.  The payload slice
`&data[decode_start..decode_end]` carries no bounds check in the source;
a declared length that is negative or reaches past the end of the slice
makes the indexing operation abort, which `none` models. -/
def decode_bytestring (data : List Nat) : Option DecodeResult :=
  match position (fun d_var => d_var = COLON) data with
  | some size_end =>
    match decode_ascii_integer (data.take size_end) with
    | none => none
    | some (.ok length) =>
      if length < 0 then
        none
      else
        let decode_start := size_end + 1
        let decode_end := decode_start + length.toNat
        if decode_end ≤ data.length then
          some (.Ok ⟨.ByteString ((data.drop decode_start).take length.toNat),
                     decode_end⟩)
        else
          none
    | some (.error e) =>
      some (.Err ⟨e.offset, .InvalidByteStringSize⟩)
  | none => some (.Err ⟨0, .MissingDelimiter⟩)

/-- `decode_integer` from `src/lib.rs`.  `&data[0]` on an empty slice
aborts (`none`); the body between `i` and the first `e` is handed to
`decode_ascii_integer`. -/
def decode_integer (data : List Nat) : Option DecodeResult :=
  match data with
  | [] => none
  | b :: _ =>
    if b ≠ IBYTE then
      some (.Err ⟨0, .MissingStartDelimiter⟩)
    else
      match position (fun d_var => d_var = EBYTE) data with
      | some integer_end =>
        match decode_ascii_integer ((data.drop 1).take (integer_end - 1)) with
        | none => none
        | some (.ok element) => some (.Ok ⟨.Integer element, integer_end + 1⟩)
        | some (.error _) => some (.Err ⟨0, .InvalidIntegerValue⟩)
      | none => some (.Err ⟨0, .MissingEndDelimiter⟩)

mutual

/-- `dispatch` from `src/lib.rs`: route on the leading byte.  `&data[0]`
on an empty slice aborts (`none`).  The first argument is fuel for the
mutual recursion (see the module comment). -/
def dispatch : Nat → List Nat → Option DecodeResult
  | 0, _ => none
  | fuel + 1, data =>
    match data with
    | [] => none
    | b :: _ =>
      if 0x30 ≤ b ∧ b ≤ 0x39 then decode_bytestring data
      else if b = IBYTE then decode_integer data
      else if b = LBYTE then decode_list fuel data
      else if b = DBYTE then decode_dict fuel data
      else some (.Err ⟨0, .DispatchFailed⟩)

/-- `decode_list` from `src/lib.rs`: check the leading `l`, then run the
element loop starting at offset 1. -/
def decode_list : Nat → List Nat → Option DecodeResult
  | 0, _ => none
  | fuel + 1, data =>
    match data with
    | [] => none
    | b :: rest =>
      if b ≠ LBYTE then some (.Err ⟨0, .MissingStartDelimiter⟩)
      else listLoop fuel rest 1 []

/-- The `while offset < data.len()` loop of `decode_list`, carried over
the remaining suffix (`rest = data.drop offset`) together with the
running `offset` and the accumulated elements. -/
def listLoop : Nat → List Nat → Nat → List Element → Option DecodeResult
  | 0, _, _, _ => none
  | fuel + 1, rest, offset, acc =>
    match rest with
    | [] => some (.Err ⟨offset, .MissingEndDelimiter⟩)
    | b :: _ =>
      if b = EBYTE then some (.Ok ⟨.List acc, offset + 1⟩)
      else
        match dispatch fuel rest with
        | none => none
        | some (.Ok result) =>
          listLoop fuel (rest.drop result.end_offset)
            (offset + result.end_offset) (acc ++ [result.element])
        | some (.Err e) =>
          some (.Err ⟨e.offset + offset, e.error_type⟩)

/-- `decode_dict` from `src/lib.rs`: check the leading `d`, then run the
key/value loop starting at offset 1. -/
def decode_dict : Nat → List Nat → Option DecodeResult
  | 0, _ => none
  | fuel + 1, data =>
    match data with
    | [] => none
    | b :: rest =>
      if b ≠ DBYTE then some (.Err ⟨0, .MissingStartDelimiter⟩)
      else dictLoop fuel rest 1 []

/-- The `while offset < data.len()` loop of `decode_dict`.  Note the
faithfully preserved value-error arm: the bubbling offset is adjusted by
`offset` only, without the decoded key's `end_offset` (compare the happy
path, which advances by `result.end_offset + decode_key.end_offset`). -/
def dictLoop : Nat → List Nat → Nat → List (List Nat × Element) →
    Option DecodeResult
  | 0, _, _, _ => none
  | fuel + 1, rest, offset, acc =>
    match rest with
    | [] => some (.Err ⟨offset, .MissingEndDelimiter⟩)
    | b :: _ =>
      if b = EBYTE then some (.Ok ⟨.Dict acc, offset + 1⟩)
      else
        match decode_bytestring rest with
        | none => none
        | some (.Ok decode_key) =>
          match decode_key.element with
          | .ByteString key =>
            match dispatch fuel (rest.drop decode_key.end_offset) with
            | none => none
            | some (.Ok result) =>
              dictLoop fuel
                (rest.drop (decode_key.end_offset + result.end_offset))
                (offset + result.end_offset + decode_key.end_offset)
                (acc ++ [(key, result.element)])
            | some (.Err e) =>
              some (.Err ⟨e.offset + offset, e.error_type⟩)
          | _ => some (.Err ⟨offset, .InvalidDictKey⟩)
        | some (.Err e) =>
          some (.Err ⟨e.offset + offset, e.error_type⟩)

end

/-- The `while offset < data.len()` loop of the top-level `decode`,
carried over the remaining suffix with the cumulative offset. -/
def decodeLoop : Nat → List Nat → Nat → List Element → Option DecodedDocument
  | 0, _, _, _ => none
  | fuel + 1, rest, offset, acc =>
    match rest with
    | [] => some (.Ok acc)
    | _ :: _ =>
      match dispatch fuel rest with
      | none => none
      | some (.Ok result) =>
        decodeLoop fuel (rest.drop result.end_offset)
          (offset + result.end_offset) (acc ++ [result.element])
      | some (.Err e) =>
        some (.Err ⟨e.offset + offset, e.error_type⟩)

/-- `decode` from `src/lib.rs`, the top-level decoder.  The fuel budget
`4 * data.length + 16` strictly dominates the depth of the call tree for
every input this development evaluates (each unit of nesting or loop
iteration consumes at most four fuel). -/
def decode (data : List Nat) : Option DecodedDocument :=
  decodeLoop (4 * data.length + 16) data 0 []

/-- ASCII bytes of a string literal (all inputs used here are ASCII). -/
def bytes (s : String) : List Nat :=
  s.toList.map Char.toNat

/-- Little-endian ASCII decimal digits of `n` (least significant first).
The fuel argument makes the recursion on `n / 10` structural; `n + 1`
fuel always suffices. -/
def digitsRevAux : Nat → Nat → List Nat
  | 0, _ => []
  | fuel + 1, n =>
    if n < 10 then [n + 0x30] else (n % 10 + 0x30) :: digitsRevAux fuel (n / 10)

/-- Canonical ASCII decimal digit string of `n` (no leading zeros,
most significant first). -/
def digitsOfNat (n : Nat) : List Nat :=
  (digitsRevAux (n + 1) n).reverse

/-- Mathematical value of a little-endian byte run under the decoder's
digit map: the head is weighted `10 ^ 0`, and each byte contributes
`(b + 256 - 0x30) % 256`, the wrapping `u8` subtraction the decoder
performs. -/
def littleVal : List Nat → Nat
  | [] => 0
  | b :: rest => (b + 256 - 0x30) % 256 + 10 * littleVal rest

/-- Ordinary numeric value of a big-endian ASCII digit string. -/
def digitsNatVal (ds : List Nat) : Nat :=
  ds.foldl (fun a d => a * 10 + (d - 0x30)) 0

/-!  The renderer (`impl Display` for `Element` in `src/lib.rs`).  The
byte-string arm calls `String::from_utf8` (modelled by `utf8Chars`,
an RFC 3629 decoder matching the Rust validity rules) and, on invalid
UTF-8, `base64::encode` (the standard alphabet with `=` padding).
Dict keys go through `String::from_utf8(key).unwrap()`, whose panic on
a non-UTF-8 key is modelled as `none`. -/

/-- Is `b` a UTF-8 continuation byte? -/
def isCont (b : Nat) : Bool := 0x80 ≤ b ∧ b ≤ 0xBF

/-- Payload bits of a continuation byte. -/
def contVal (b : Nat) : Nat := b - 0x80

/-- UTF-8 decoding with full validation (overlong forms, surrogates and
out-of-range code points rejected), as `String::from_utf8` does. -/
def utf8Chars : List Nat → Option (List Char)
  | [] => some []
  | b :: rest =>
    if b ≤ 0x7F then
      (utf8Chars rest).map (fun cs => Char.ofNat b :: cs)
    else if 0xC2 ≤ b ∧ b ≤ 0xDF then
      match rest with
      | b2 :: rest2 =>
        if isCont b2 then
          (utf8Chars rest2).map
            (fun cs => Char.ofNat ((b - 0xC0) * 0x40 + contVal b2) :: cs)
        else none
      | _ => none
    else if 0xE0 ≤ b ∧ b ≤ 0xEF then
      match rest with
      | b2 :: b3 :: rest3 =>
        let lo2 := if b = 0xE0 then 0xA0 else 0x80
        let hi2 := if b = 0xED then 0x9F else 0xBF
        if (lo2 ≤ b2 ∧ b2 ≤ hi2) ∧ isCont b3 then
          (utf8Chars rest3).map
            (fun cs =>
              Char.ofNat ((b - 0xE0) * 0x1000 + contVal b2 * 0x40 +
                contVal b3) :: cs)
        else none
      | _ => none
    else if 0xF0 ≤ b ∧ b ≤ 0xF4 then
      match rest with
      | b2 :: b3 :: b4 :: rest4 =>
        let lo2 := if b = 0xF0 then 0x90 else 0x80
        let hi2 := if b = 0xF4 then 0x8F else 0xBF
        if (lo2 ≤ b2 ∧ b2 ≤ hi2) ∧ isCont b3 ∧ isCont b4 then
          (utf8Chars rest4).map
            (fun cs =>
              Char.ofNat ((b - 0xF0) * 0x40000 + contVal b2 * 0x1000 +
                contVal b3 * 0x40 + contVal b4) :: cs)
        else none
      | _ => none
    else none

/-- Character of the standard base64 alphabet at index `n < 64`. -/
def b64Char (n : Nat) : Char :=
  if n < 26 then Char.ofNat (0x41 + n)
  else if n < 52 then Char.ofNat (0x61 + (n - 26))
  else if n < 62 then Char.ofNat (0x30 + (n - 52))
  else if n = 62 then '+'
  else '/'

/-- `base64::encode` with the standard alphabet and `=` padding. -/
def base64Chars : List Nat → List Char
  | a :: b :: c :: rest =>
    let x := a * 0x10000 + b * 0x100 + c
    b64Char (x / 0x40000) :: b64Char (x / 0x1000 % 0x40) ::
      b64Char (x / 0x40 % 0x40) :: b64Char (x % 0x40) :: base64Chars rest
  | [a, b] =>
    let x := a * 0x400 + b * 4
    [b64Char (x / 0x1000), b64Char (x / 0x40 % 0x40), b64Char (x % 0x40), '=']
  | [a] =>
    let x := a * 0x10
    [b64Char (x / 0x40), b64Char (x % 0x40), '=', '=']
  | [] => []

/-- `s.replace("\"", "\\\"")` on a decoded character list: the
single-character pattern makes the replacement a per-character map. -/
def escapeQuotes (cs : List Char) : List Char :=
  (cs.map (fun c => if c = '"' then ['\\', '"'] else [c])).flatten

/-- Decimal rendering of a natural number. -/
def natDisplay (n : Nat) : String :=
  String.mk ((digitsOfNat n).map Char.ofNat)

/-- `format!("{}", i)` for an `i64`: decimal digits with a leading `-`
for negative values. -/
def intDisplay (i : Int) : String :=
  if i < 0 then "-" ++ natDisplay i.natAbs else natDisplay i.natAbs

/-- The rendered body of a byte-string: the escaped UTF-8 text when the
bytes are valid UTF-8, otherwise the base64 encoding of the raw bytes. -/
def byteStringBody (s : List Nat) : String :=
  match utf8Chars s with
  | some cs => String.mk (escapeQuotes cs)
  | none => String.mk (base64Chars s)

mutual

/-- `impl Display for Element` from `src/lib.rs`.  The `List` and `Dict`
arms push an opening bracket, append every entry followed by `", "`, pop
two characters (intending to drop the trailing separator) and push the
closing bracket.  `String.dropRight 2` is exactly the double
`String::pop` of the source: each `pop` on a nonempty string removes the
final character and on an empty string does nothing.  `none` models the
panic of `String::from_utf8(key).unwrap()` on a non-UTF-8 dict key. -/
def Element.fmt : Element → Option String
  | .ByteString s => some ("\"" ++ byteStringBody s ++ "\"")
  | .Integer i => some (intDisplay i)
  | .List list =>
    (fmtListEntries list).map
      (fun pieces => ("[" ++ pieces).dropRight 2 ++ "]")
  | .Dict dict =>
    (fmtDictEntries dict).map
      (fun pieces => ("\x7b" ++ pieces).dropRight 2 ++ "\x7d")

/-- The entry loop of the `List` arm: each entry contributes its
rendering followed by `", "`. -/
def fmtListEntries : List Element → Option String
  | [] => some ""
  | entry :: rest =>
    match Element.fmt entry, fmtListEntries rest with
    | some s, some r => some (s ++ ", " ++ r)
    | _, _ => none

/-- The entry loop of the `Dict` arm; each entry renders as
`"key": value` (`impl Display for DictEntry`) followed by `", "`. -/
def fmtDictEntries : List (List Nat × Element) → Option String
  | [] => some ""
  | (key, value) :: rest =>
    match utf8Chars key with
    | none => none
    | some ks =>
      match Element.fmt value, fmtDictEntries rest with
      | some v, some r =>
        some ("\"" ++ String.mk ks ++ "\": " ++ v ++ ", " ++ r)
      | _, _ => none

end

/-! ## Helper lemmas about the digit accumulator -/

/-- The accumulation loop aborts (models the failing `usize → u32`
conversion of the exponent) as soon as the running index reaches
`2 ^ 32`, which happens exactly when more than `2 ^ 32` bytes are
iterated. -/
theorem asciiAccum_overflow : ∀ (ds : List Nat) (idx val : Nat), ds ≠ [] →
    2 ^ 32 < idx + ds.length → asciiAccum ds idx val = none
  | [], _, _, hne, _ => absurd rfl hne
  | b :: rest, idx, val, _, h => by
    rw [asciiAccum]
    split
    · next hidx =>
      have hr : rest ≠ [] := by
        cases rest with
        | nil => simp only [List.length_cons, List.length_nil] at h; omega
        | cons _ _ => simp
      exact asciiAccum_overflow rest (idx + 1) _ hr
        (by simp only [List.length_cons] at h ⊢; omega)
    · rfl

/-- Closed form of the accumulation loop when the index never reaches
`2 ^ 32`: it returns the little-endian weighted sum, reduced modulo
`2 ^ 64`. -/
theorem asciiAccum_eval : ∀ (ds : List Nat) (idx val : Nat),
    idx + ds.length ≤ 2 ^ 32 → val < 2 ^ 64 →
    asciiAccum ds idx val = some ((val + littleVal ds * 10 ^ idx) % 2 ^ 64)
  | [], idx, val, _, hval => by
    simp only [asciiAccum, littleVal, Nat.zero_mul, Nat.add_zero]
    rw [Nat.mod_eq_of_lt hval]
  | b :: rest, idx, val, h, hval => by
    have hidx : idx < 2 ^ 32 := by
      simp only [List.length_cons] at h; omega
    rw [asciiAccum, if_pos hidx,
      asciiAccum_eval rest (idx + 1) _
        (by simp only [List.length_cons] at h ⊢; omega)
        (Nat.mod_lt _ (by omega))]
    have h10 : 10 ^ idx % 2 ^ 64 ≡ 10 ^ idx [MOD 2 ^ 64] := Nat.mod_modEq _ _
    have hmod :
        val + (b + 256 - 0x30) % 256 * (10 ^ idx % 2 ^ 64) +
            littleVal rest * 10 ^ (idx + 1) ≡
          val + (b + 256 - 0x30) % 256 * 10 ^ idx +
            littleVal rest * 10 ^ (idx + 1) [MOD 2 ^ 64] :=
      ((h10.mul_left _).add_left val).add_right _
    rw [Nat.mod_add_mod]
    have hval : val + (b + 256 - 0x30) % 256 * 10 ^ idx +
        littleVal rest * 10 ^ (idx + 1) =
        val + littleVal (b :: rest) * 10 ^ idx := by
      rw [littleVal, pow_succ]
      ring
    rw [Option.some.injEq]
    calc (val + (b + 256 - 0x30) % 256 * (10 ^ idx % 2 ^ 64) +
          littleVal rest * 10 ^ (idx + 1)) % 2 ^ 64
        = (val + (b + 256 - 0x30) % 256 * 10 ^ idx +
            littleVal rest * 10 ^ (idx + 1)) % 2 ^ 64 := hmod
      _ = (val + littleVal (b :: rest) * 10 ^ idx) % 2 ^ 64 := by rw [hval]

/-- Appending a most-significant byte to a little-endian run adds its
weighted value. -/
theorem littleVal_append_singleton (xs : List Nat) (d : Nat) :
    littleVal (xs ++ [d]) =
      littleVal xs + (d + 256 - 0x30) % 256 * 10 ^ xs.length := by
  induction xs with
  | nil => simp [littleVal]
  | cons b rest ih =>
    rw [List.cons_append, littleVal, ih, littleVal, List.length_cons, pow_succ]
    ring

/-- Folding the decimal accumulation from an arbitrary seed shifts the
seed by the length of the digit string. -/
theorem digitsNatVal_shift (ds : List Nat) (a : Nat) :
    ds.foldl (fun x d => x * 10 + (d - 0x30)) a =
      a * 10 ^ ds.length + digitsNatVal ds := by
  induction ds generalizing a with
  | nil => simp [digitsNatVal]
  | cons d rest ih =>
    rw [digitsNatVal, List.foldl_cons, List.foldl_cons, ih, ih (0 * 10 + _)]
    simp only [List.length_cons, pow_succ]
    ring

/-- The decimal value of a digit string, peeled at the most significant
digit. -/
theorem digitsNatVal_cons (d : Nat) (rest : List Nat) :
    digitsNatVal (d :: rest) =
      (d - 0x30) * 10 ^ rest.length + digitsNatVal rest := by
  rw [digitsNatVal, List.foldl_cons, digitsNatVal_shift]
  norm_num

/-- For a run of ASCII digits the reversed little-endian weighted sum is
the ordinary decimal value. -/
theorem littleVal_reverse_digits (ds : List Nat)
    (h : ∀ d ∈ ds, 0x30 ≤ d ∧ d ≤ 0x39) :
    littleVal ds.reverse = digitsNatVal ds := by
  induction ds with
  | nil => simp [littleVal, digitsNatVal]
  | cons d rest ih =>
    have hd := h d (by simp)
    have hwrap : (d + 256 - 0x30) % 256 = d - 0x30 := by omega
    rw [List.reverse_cons, littleVal_append_singleton,
      ih (fun x hx => h x (by simp [hx])), List.length_reverse, hwrap,
      digitsNatVal_cons]
    ring

/-! ## Helper lemmas about canonical decimal digit strings -/

theorem digitsRevAux_ne_nil (fuel n : Nat) : digitsRevAux (fuel + 1) n ≠ [] := by
  rw [digitsRevAux]
  split
  all_goals simp

theorem littleVal_digitsRevAux : ∀ (fuel n : Nat), n < fuel →
    littleVal (digitsRevAux fuel n) = n
  | 0, _, h => absurd h (by omega)
  | fuel + 1, n, h => by
    rw [digitsRevAux]
    split
    · next hn => simp only [littleVal]; omega
    · next hn =>
      rw [littleVal, littleVal_digitsRevAux fuel (n / 10) (by omega)]
      omega

theorem digitsRevAux_digits : ∀ (fuel n : Nat), n < fuel →
    ∀ d ∈ digitsRevAux fuel n, 0x30 ≤ d ∧ d ≤ 0x39
  | 0, _, h => absurd h (by omega)
  | fuel + 1, n, h => by
    rw [digitsRevAux]
    split
    · next hn =>
      intro d hd
      simp only [List.mem_singleton] at hd
      omega
    · next hn =>
      intro d hd
      rcases List.mem_cons.mp hd with h1 | h2
      · omega
      · exact digitsRevAux_digits fuel (n / 10) (by omega) d h2

theorem digitsRevAux_length : ∀ (fuel n k : Nat), n < fuel → n < 10 ^ k →
    1 ≤ k → (digitsRevAux fuel n).length ≤ k
  | 0, _, _, h, _, _ => absurd h (by omega)
  | fuel + 1, n, k, h, hk, hk1 => by
    rw [digitsRevAux]
    split
    · next hn => simpa using hk1
    · next hn =>
      have hk2 : 2 ≤ k := by
        by_contra hlt
        have hke : k = 1 := by omega
        subst hke
        simp only [pow_one] at hk
        omega
      have hdiv : n / 10 < 10 ^ (k - 1) := by
        rw [Nat.div_lt_iff_lt_mul (by omega)]
        calc n < 10 ^ k := hk
          _ = 10 ^ (k - 1) * 10 := by
            rw [← pow_succ]
            congr 1
            omega
      simp only [List.length_cons]
      have := digitsRevAux_length fuel (n / 10) (k - 1) (by omega) hdiv
        (by omega)
      omega

/-! ## Behaviour of `decode_ascii_integer` on digit runs -/

/-- On a nonempty run of at most `2 ^ 32` ASCII digits the reader
returns the decimal value wrapped to a signed 64-bit integer, with no
error. -/
theorem decode_ascii_integer_digits (ds : List Nat)
    (hd : ∀ d ∈ ds, 0x30 ≤ d ∧ d ≤ 0x39) (hne : ds ≠ [])
    (hlen : ds.length ≤ 2 ^ 32) :
    decode_ascii_integer ds =
      some (.ok (toI64 (digitsNatVal ds % 2 ^ 64))) := by
  have hhead : ¬ds.head? = some MINUS := by
    cases ds with
    | nil => simp
    | cons a t =>
      have := hd a (by simp)
      simp only [List.head?_cons, Option.some.injEq, MINUS]
      omega
  simp only [decode_ascii_integer, if_neg hhead,
    if_neg (by simpa using hne : ¬ds.length = 0)]
  rw [asciiAccum_eval ds.reverse 0 0 (by simpa using hlen) (by omega)]
  rw [pow_zero, Nat.mul_one, Nat.zero_add, littleVal_reverse_digits ds hd]

/-- With a leading `-` the reader drops the sign byte, accumulates the
remaining digits and applies wrapping 64-bit negation. -/
theorem decode_ascii_integer_minus_digits (ds : List Nat)
    (hd : ∀ d ∈ ds, 0x30 ≤ d ∧ d ≤ 0x39) (hlen : ds.length ≤ 2 ^ 32) :
    decode_ascii_integer (MINUS :: ds) =
      some (.ok (toI64 ((2 ^ 64 - digitsNatVal ds % 2 ^ 64) % 2 ^ 64))) := by
  simp only [decode_ascii_integer, List.head?_cons, List.length_cons,
    if_neg (by omega : ¬ds.length + 1 = 0), List.drop_one, List.tail_cons,
    Option.some.injEq, if_true, eq_self_iff_true]
  rw [asciiAccum_eval ds.reverse 0 0 (by simpa using hlen) (by omega)]
  rw [pow_zero, Nat.mul_one, Nat.zero_add, littleVal_reverse_digits ds hd]

/-! ## `Iterator::position` and slice helpers -/

theorem position_append_cons (p : Nat → Bool) :
    ∀ (xs : List Nat) (y : Nat) (zs : List Nat),
    (∀ x ∈ xs, p x = false) → p y = true →
    position p (xs ++ y :: zs) = some xs.length
  | [], y, zs, _, hy => by simp [position, hy]
  | x :: xs, y, zs, hxs, hy => by
    rw [List.cons_append, position,
      if_neg (by simp [hxs x (by simp)]),
      position_append_cons p xs y zs (fun a ha => hxs a (by simp [ha])) hy]
    simp

theorem drop_append_cons (xs : List Nat) (y : Nat) (zs : List Nat) :
    (xs ++ y :: zs).drop (xs.length + 1) = zs := by
  induction xs with
  | nil => simp
  | cons a t ih => simp [ih]

/-! ## Canonical digit strings of a natural number -/

theorem digitsOfNat_digits (n : Nat) :
    ∀ d ∈ digitsOfNat n, 0x30 ≤ d ∧ d ≤ 0x39 := fun d hd =>
  digitsRevAux_digits (n + 1) n (by omega) d (List.mem_reverse.mp hd)

theorem digitsOfNat_ne_nil (n : Nat) : digitsOfNat n ≠ [] := by
  simp only [digitsOfNat, ne_eq, List.reverse_eq_nil_iff]
  exact digitsRevAux_ne_nil n n

theorem digitsNatVal_digitsOfNat (n : Nat) :
    digitsNatVal (digitsOfNat n) = n := by
  rw [← littleVal_reverse_digits _ (digitsOfNat_digits n)]
  simp only [digitsOfNat, List.reverse_reverse]
  exact littleVal_digitsRevAux (n + 1) n (by omega)

theorem digitsOfNat_length_le (n k : Nat) (hk : n < 10 ^ k) (h1 : 1 ≤ k) :
    (digitsOfNat n).length ≤ k := by
  simp only [digitsOfNat, List.length_reverse]
  exact digitsRevAux_length (n + 1) n k (by omega) hk h1

/-- The reader inverts the canonical digit string of any value in the
nonnegative signed 64-bit range. -/
theorem decode_ascii_integer_digitsOfNat (n : Nat) (h : n < 2 ^ 63) :
    decode_ascii_integer (digitsOfNat n) = some (.ok (n : Int)) := by
  rw [decode_ascii_integer_digits _ (digitsOfNat_digits n)
    (digitsOfNat_ne_nil n)
    (le_trans
      (digitsOfNat_length_le n 19 (lt_of_lt_of_le h (by norm_num))
        (by norm_num))
      (by norm_num))]
  rw [digitsNatVal_digitsOfNat, Nat.mod_eq_of_lt (by omega)]
  simp only [toI64, if_pos h]

/-- Folding the decimal accumulation over a run of ASCII zeros
multiplies the seed by the matching power of ten. -/
theorem digitsNatVal_replicate_zero : ∀ (m a : Nat),
    (List.replicate m 0x30).foldl (fun x d => x * 10 + (d - 0x30)) a =
      a * 10 ^ m
  | 0, a => by simp
  | m + 1, a => by
    rw [List.replicate_succ, List.foldl_cons,
      digitsNatVal_replicate_zero m _, pow_succ]
    ring_nf

theorem digitsNatVal_one_replicate_zero (n : Nat) :
    digitsNatVal (0x31 :: List.replicate n 0x30) = 10 ^ n := by
  rw [digitsNatVal, List.foldl_cons, digitsNatVal_replicate_zero]
  norm_num

/-- A digit run of more than `2 ^ 32` bytes aborts the reader: here, a
one followed by `n > 2 ^ 32` zeros. -/
theorem decode_ascii_integer_one_replicate (n : Nat) (h : 2 ^ 32 < n) :
    decode_ascii_integer (0x31 :: List.replicate n 0x30) = none := by
  simp only [decode_ascii_integer,
    if_neg (by simp [MINUS] :
      ¬(0x31 :: List.replicate n 0x30).head? = some MINUS),
    if_neg (by simp : ¬(0x31 :: List.replicate n 0x30).length = 0)]
  rw [asciiAccum_overflow _ 0 0 (by simp)
    (by simp only [List.length_reverse, List.length_cons,
      List.length_replicate]; omega)]

/-- A digit run of more than `2 ^ 32` bytes aborts the reader: here, a
run of `n > 2 ^ 32` zeros. -/
theorem decode_ascii_integer_replicate_zero (n : Nat) (h : 2 ^ 32 < n) :
    decode_ascii_integer (List.replicate n 0x30) = none := by
  obtain ⟨m, rfl⟩ : ∃ m, n = m + 1 := ⟨n - 1, by omega⟩
  rw [List.replicate_succ]
  simp only [decode_ascii_integer,
    if_neg (by simp [MINUS] :
      ¬(0x30 :: List.replicate m 0x30).head? = some MINUS),
    if_neg (by simp : ¬(0x30 :: List.replicate m 0x30).length = 0)]
  rw [asciiAccum_overflow _ 0 0 (by simp)
    (by simp only [List.length_reverse, List.length_cons,
      List.length_replicate]; omega)]

/-! ## The claims -/

/-- Claim C1: the top-level decoder satisfies the literal end-to-end
scenarios of the spec: `decode("8:announce")` is the single byte-string
`announce`; `decode("i-18e")` is `Integer (-18)`; concatenated top-level
values decode back-to-back as in `decode("li10ei1el1:bee1:a")`;
`decode("d1:ai10ee")` is a one-entry dict; and decoding the empty input
yields the empty sequence, not an error. -/
theorem claim_C1_end_to_end :
    decode (bytes "8:announce") =
      some (.Ok [.ByteString (bytes "announce")]) ∧
    decode (bytes "i-18e") = some (.Ok [.Integer (-18)]) ∧
    decode (bytes "li10ei1el1:bee1:a") =
      some (.Ok [.List [.Integer 10, .Integer 1,
                        .List [.ByteString (bytes "b")]],
                 .ByteString (bytes "a")]) ∧
    decode (bytes "d1:ai10ee") =
      some (.Ok [.Dict [(bytes "a", .Integer 10)]]) ∧
    decode (bytes "") = some (.Ok []) :=
  ⟨rfl, rfl, rfl, rfl, rfl⟩

/-- Claim C2 (refuted as stated): on the truncated byte-string `5:abc`
(declared length 5 with only 3 payload bytes) the decoder does not
return an `InvalidByteStringData` error — the unchecked payload slice
`&data[2..7]` runs past the end of the 5-byte input and the program
aborts, which the model's `none` captures.  `InvalidByteStringData` is
never constructed anywhere in `src/lib.rs`. -/
theorem claim_C2_truncated_bytestring_aborts :
    decode_bytestring (bytes "5:abc") = none ∧
    decode (bytes "5:abc") = none :=
  ⟨rfl, rfl⟩

/-- Claim C3 (refuted as stated): a dict key with no value, as in
`decode("d1:a")`, reaches `dispatch` on an empty slice, where `&data[0]`
aborts the program (`none`) instead of returning a `DispatchFailed`
error; the second conjunct confirms the true half of the claim, that an
empty slice at the top level terminates the decode loop successfully. -/
theorem claim_C3_empty_dispatch_aborts :
    decode (bytes "d1:a") = none ∧
    decode (bytes "") = some (.Ok []) :=
  ⟨rfl, rfl⟩

/-- Claim C4 (refuted as stated): offsets of errors bubbling out of a
dict value are not made absolute.  In `decode("d1:axe")` the dispatch
failure sits at absolute byte 4 (the `x`), but `decode_dict` adds only
its element-start offset 1 and forgets the 3 bytes of the decoded key
`1:a`, so the surfaced error carries offset 1. -/
theorem claim_C4_dict_value_offset_not_absolute :
    decode (bytes "d1:axe") = some (.Err ⟨1, .DispatchFailed⟩) :=
  rfl

/-- Claim C5: for every valid byte-string input `N:payload` (with `N`
the payload length in canonical decimal and any trailing bytes after
the payload), the byte-string decoder returns the payload and an
`end_offset` of digit-count plus one plus `N`.  The bound on the
payload length reflects the maximum size of a Rust slice
(`isize::MAX` bytes). -/
theorem claim_C5_valid_bytestring (payload rest : List Nat)
    (h : payload.length < 2 ^ 63) :
    decode_bytestring
        (digitsOfNat payload.length ++ COLON :: (payload ++ rest)) =
      some (.Ok ⟨.ByteString payload,
        (digitsOfNat payload.length).length + 1 + payload.length⟩) := by
  have hdig := digitsOfNat_digits payload.length
  unfold decode_bytestring
  rw [position_append_cons _ _ _ _
    (fun x hx => by
      have := hdig x hx
      simp only [decide_eq_false_iff_not, COLON]
      omega)
    (by simp)]
  simp only []
  rw [List.take_left, decode_ascii_integer_digitsOfNat payload.length h]
  simp only []
  rw [if_neg (not_lt.mpr (Int.natCast_nonneg _)), Int.toNat_natCast,
    drop_append_cons, List.take_left,
    if_pos (by simp only [List.length_append, List.length_cons]; omega)]

/-- Claim C5 witness: the concrete instance `3:abc` followed by the
trailing bytes `i1e`. -/
theorem claim_C5_witness :
    (bytes "abc").length < 2 ^ 63 ∧
    decode_bytestring (digitsOfNat (bytes "abc").length ++ COLON ::
        (bytes "abc" ++ bytes "i1e")) =
      some (.Ok ⟨.ByteString (bytes "abc"),
        (digitsOfNat (bytes "abc").length).length + 1 +
          (bytes "abc").length⟩) :=
  ⟨by decide, claim_C5_valid_bytestring (bytes "abc") (bytes "i1e")
    (by decide)⟩

/-- Claim C6 (refuted as stated): the ascii-integer reader has no digit
check at all; the body of `i e` is accepted, the space byte is mapped
through wrapping byte arithmetic to 240, and `decode("i e")` returns
`Integer 240` instead of an `InvalidIntegerValue` error (under the
debug profile the same input aborts on the underflowing subtraction). -/
theorem claim_C6_nondigit_byte_accepted :
    decode (bytes "i e") = some (.Ok [.Integer 240]) :=
  rfl

/-- Claim C7 (refuted as stated): rendering the empty list produces
`]`, not `[]` — the two trailing `pop` calls meant to strip a final
`", "` eat the opening bracket when no entry was rendered.  The second
conjunct confirms the non-empty half of the claim on `[10, 1]`. -/
theorem claim_C7_empty_list_renders_bracket_only :
    Element.fmt (.List []) = some "]" ∧
    Element.fmt (.List [.Integer 10, .Integer 1]) = some "[10, 1]" := by
  constructor
  · simp only [Element.fmt, fmtListEntries, Option.map_some]
    rfl
  · simp only [Element.fmt, fmtListEntries, intDisplay, Option.map_some]
    rfl

/-- Claim C8 (corrected): the reader performs no overflow check and a
digit string of at most `2 ^ 32` digits whose value exceeds the signed
64-bit range comes back wrapped modulo `2 ^ 64` with no error; the
correction is the length bound — beyond `2 ^ 32` digits the exponent
index no longer converts to `u32` and the reader aborts instead of
wrapping (see the counterexample). -/
theorem claim_C8_overflow_wraps (ds : List Nat)
    (hd : ∀ d ∈ ds, 0x30 ≤ d ∧ d ≤ 0x39) (hne : ds ≠ [])
    (hlen : ds.length ≤ 2 ^ 32)
    (hbig : 2 ^ 63 - 1 < digitsNatVal ds) :
    decode_ascii_integer ds =
      some (.ok (toI64 (digitsNatVal ds % 2 ^ 64))) :=
  decode_ascii_integer_digits ds hd hne hlen

/-- Claim C8 counterexample: the digit string `1` followed by
`2 ^ 32 + 1` zeros has value `10 ^ (2 ^ 32 + 1)`, far above the signed
64-bit range, yet the reader aborts (on the `usize → u32` exponent
conversion) instead of returning a wrapped value. -/
theorem claim_C8_counterexample :
    2 ^ 63 - 1 < digitsNatVal (0x31 :: List.replicate (2 ^ 32 + 1) 0x30) ∧
    decode_ascii_integer (0x31 :: List.replicate (2 ^ 32 + 1) 0x30) =
      none :=
  by
  refine ⟨?_, decode_ascii_integer_one_replicate (2 ^ 32 + 1) (by norm_num)⟩
  rw [digitsNatVal_one_replicate_zero]
  exact lt_of_lt_of_le (by norm_num : 2 ^ 63 - 1 < 10 ^ 19)
    (Nat.pow_le_pow_right (by norm_num) (by norm_num))

/-- Claim C8 witness: the 20-digit string for `2 ^ 64 + 1` wraps to the
value 1 with no error reported. -/
theorem claim_C8_witness :
    (∀ d ∈ bytes "18446744073709551617", 0x30 ≤ d ∧ d ≤ 0x39) ∧
    bytes "18446744073709551617" ≠ [] ∧
    (bytes "18446744073709551617").length ≤ 2 ^ 32 ∧
    2 ^ 63 - 1 < digitsNatVal (bytes "18446744073709551617") ∧
    decode_ascii_integer (bytes "18446744073709551617") =
      some (.ok (toI64 (digitsNatVal (bytes "18446744073709551617") %
        2 ^ 64))) :=
  ⟨by decide, by decide, by decide, by decide,
   claim_C8_overflow_wraps (bytes "18446744073709551617") (by decide)
     (by decide) (by decide) (by decide)⟩

/-- Claim C9 (corrected): negative zero and leading-zero forms are
accepted — `decode("i-0e")` yields `Integer 0` and `decode("i007e")`
yields `Integer 7` — and any digit string of at most `2 ^ 32` digits,
optionally preceded by one `-`, parses successfully; the correction is
the length bound (see the counterexample). -/
theorem claim_C9_permissive_integer_forms :
    decode (bytes "i-0e") = some (.Ok [.Integer 0]) ∧
    decode (bytes "i007e") = some (.Ok [.Integer 7]) ∧
    ∀ ds : List Nat, (∀ d ∈ ds, 0x30 ≤ d ∧ d ≤ 0x39) → ds ≠ [] →
      ds.length ≤ 2 ^ 32 →
      (∃ v : Int, decode_ascii_integer ds = some (.ok v)) ∧
      (∃ v : Int, decode_ascii_integer (MINUS :: ds) = some (.ok v)) := by
  refine ⟨rfl, rfl, fun ds hd hne hlen => ?_⟩
  exact ⟨⟨_, decode_ascii_integer_digits ds hd hne hlen⟩,
    ⟨_, decode_ascii_integer_minus_digits ds hd hlen⟩⟩

/-- Claim C9 counterexample: a run of `2 ^ 32 + 1` zero digits — a
digit string with leading zeros — does not parse successfully: the
reader aborts on the `usize → u32` exponent conversion. -/
theorem claim_C9_counterexample :
    decode_ascii_integer (List.replicate (2 ^ 32 + 1) 0x30) = none :=
  decode_ascii_integer_replicate_zero (2 ^ 32 + 1) (by norm_num)

/-- Claim C9 witness: the digit string `007` parses in both signed and
unsigned form. -/
theorem claim_C9_witness :
    (∀ d ∈ bytes "007", 0x30 ≤ d ∧ d ≤ 0x39) ∧ bytes "007" ≠ [] ∧
    (bytes "007").length ≤ 2 ^ 32 ∧
    ((∃ v : Int, decode_ascii_integer (bytes "007") = some (.ok v)) ∧
     (∃ v : Int, decode_ascii_integer (MINUS :: bytes "007") =
       some (.ok v))) :=
  ⟨by decide, by decide, by decide,
   claim_C9_permissive_integer_forms.2.2 (bytes "007") (by decide)
     (by decide) (by decide)⟩

/-- Claim C10: the ascii-integer reader maps the lone minus sign to
`Ok(0)` — the sign is consumed, the empty remainder accumulates to zero
and negation leaves zero — so `decode("i-e")` succeeds with
`Integer 0`. -/
theorem claim_C10_lone_minus_is_zero :
    decode_ascii_integer [MINUS] = some (.ok 0) ∧
    decode (bytes "i-e") = some (.Ok [.Integer 0]) :=
  ⟨rfl, rfl⟩

end Downpour

